import Mathlib

/-!
Verification development for the job-monitor ingestion pipeline
(`scripts/cron.js` and `pages/api/parse-jobs.ts`).

The JavaScript source is shallowly embedded: strings are `List Char`,
timestamps are `Nat` (ISO-8601 strings compare lexicographically, hence
chronologically), the external WHATWG `URL` parser is modelled on the
`http(s)://host[:port]/path?query#hash` fragment without userinfo or
internal whitespace (inputs outside this fragment are treated as
unparsable), and the `gpt-3-encoder` tokenizer is abstracted by working
directly on token lists.

Character classes are written as decidable propositions over `Char.toNat`
(code points): 9 TAB, 10 LF, 11 VT, 12 FF, 13 CR, 32 SPACE, 35 `#`,
45 `-`, 46 `.`, 47 `/`, 48–57 digits, 58 `:`, 63 `?`, 65–90 `A`–`Z`,
95 `_`, 97–122 `a`–`z`.
-/

namespace JobMonitor

/-! ### ASCII character helpers (JS `toLowerCase`, `trim`) -/

/-- ASCII lowering: the behaviour of JS `String.prototype.toLowerCase` on
ASCII letters; other characters are left unchanged. -/
def jsLower (c : Char) : Char :=
  if 65 ≤ c.toNat ∧ c.toNat ≤ 90 then Char.ofNat (c.toNat + 32) else c

theorem toNat_ofNat_valid (n : Nat) (h : n < 55296) : (Char.ofNat n).toNat = n := by
  rw [Char.ofNat, dif_pos (Or.inl h)]
  rfl

theorem char_eq_iff {a b : Char} : a = b ↔ a.toNat = b.toNat := by
  constructor
  · intro h; rw [h]
  · intro h
    apply Char.ext
    exact UInt32.ext h

theorem jsLower_spec (c : Char) :
    (¬(65 ≤ c.toNat ∧ c.toNat ≤ 90) ∧ jsLower c = c) ∨
    ((65 ≤ c.toNat ∧ c.toNat ≤ 90) ∧ (jsLower c).toNat = c.toNat + 32) := by
  by_cases h : 65 ≤ c.toNat ∧ c.toNat ≤ 90
  · right
    refine ⟨h, ?_⟩
    rw [jsLower, if_pos h]
    exact toNat_ofNat_valid _ (by omega)
  · left
    exact ⟨h, by rw [jsLower, if_neg h]⟩

theorem jsLower_idem (c : Char) : jsLower (jsLower c) = jsLower c := by
  rcases jsLower_spec c with ⟨h, he⟩ | ⟨h, he⟩
  · simp only [he]
  · rcases jsLower_spec (jsLower c) with ⟨h2, he2⟩ | ⟨h2, he2⟩
    · exact he2
    · omega

/-- Whitespace recognised by JS `String.prototype.trim` (ASCII part):
TAB, LF, VT, FF, CR, SPACE. -/
def isWsChar (c : Char) : Bool :=
  decide (c.toNat = 32 ∨ c.toNat = 9 ∨ c.toNat = 10 ∨ c.toNat = 13 ∨
    c.toNat = 11 ∨ c.toNat = 12)

/-- Characters the modelled URL parser accepts in a hostname:
ASCII letters, digits, `-`, `.`, `_`. -/
def hostChar (c : Char) : Bool :=
  decide ((65 ≤ c.toNat ∧ c.toNat ≤ 90) ∨ (97 ≤ c.toNat ∧ c.toNat ≤ 122) ∨
    (48 ≤ c.toNat ∧ c.toNat ≤ 57) ∨ c.toNat = 45 ∨ c.toNat = 46 ∨ c.toNat = 95)

/-- ASCII digit. -/
def digitChar (c : Char) : Bool :=
  decide (48 ≤ c.toNat ∧ c.toNat ≤ 57)

/-- Not a character that ends the host part of a URL: `/`, `?`, `#`, `:`. -/
def notHostDelim (c : Char) : Bool :=
  decide (¬(c.toNat = 47 ∨ c.toNat = 63 ∨ c.toNat = 35 ∨ c.toNat = 58))

/-- Not a character that ends the path part of a URL: `?`, `#`. -/
def notPathDelim (c : Char) : Bool :=
  decide (¬(c.toNat = 63 ∨ c.toNat = 35))

/-- Not the fragment delimiter `#`. -/
def notHashDelim (c : Char) : Bool :=
  decide (¬(c.toNat = 35))

/-- Characters the modelled parser accepts in a URL path: anything but
whitespace and the `?`/`#` delimiters. -/
def pathOkChar (c : Char) : Bool :=
  !(isWsChar c) && notPathDelim c

theorem isWs_jsLower (c : Char) : isWsChar (jsLower c) = isWsChar c := by
  rcases jsLower_spec c with ⟨h, he⟩ | ⟨h, he⟩
  · rw [he]
  · simp only [isWsChar, decide_eq_decide, he]
    omega

theorem hostChar_jsLower (c : Char) : hostChar (jsLower c) = hostChar c := by
  rcases jsLower_spec c with ⟨h, he⟩ | ⟨h, he⟩
  · rw [he]
  · simp only [hostChar, decide_eq_decide, he]
    omega

theorem digit_jsLower (c : Char) : digitChar (jsLower c) = digitChar c := by
  rcases jsLower_spec c with ⟨h, he⟩ | ⟨h, he⟩
  · rw [he]
  · simp only [digitChar, decide_eq_decide, he]
    omega

theorem notHostDelim_jsLower (c : Char) : notHostDelim (jsLower c) = notHostDelim c := by
  rcases jsLower_spec c with ⟨h, he⟩ | ⟨h, he⟩
  · rw [he]
  · simp only [notHostDelim, decide_eq_decide, he]
    omega

theorem notPathDelim_jsLower (c : Char) : notPathDelim (jsLower c) = notPathDelim c := by
  rcases jsLower_spec c with ⟨h, he⟩ | ⟨h, he⟩
  · rw [he]
  · simp only [notPathDelim, decide_eq_decide, he]
    omega

theorem notHashDelim_jsLower (c : Char) : notHashDelim (jsLower c) = notHashDelim c := by
  rcases jsLower_spec c with ⟨h, he⟩ | ⟨h, he⟩
  · rw [he]
  · simp only [notHashDelim, decide_eq_decide, he]
    omega

theorem pathOk_jsLower (c : Char) : pathOkChar (jsLower c) = pathOkChar c := by
  simp only [pathOkChar, isWs_jsLower, notPathDelim_jsLower]

theorem slash_jsLower (c : Char) : (jsLower c = '/') ↔ (c = '/') := by
  rw [char_eq_iff, char_eq_iff]
  have hv : Char.toNat '/' = 47 := by decide
  rw [hv]
  rcases jsLower_spec c with ⟨h, he⟩ | ⟨h, he⟩
  · rw [he]
  · omega

theorem colonChar_jsLower (c : Char) : (jsLower c = ':') ↔ (c = ':') := by
  rw [char_eq_iff, char_eq_iff]
  have hv : Char.toNat ':' = 58 := by decide
  rw [hv]
  rcases jsLower_spec c with ⟨h, he⟩ | ⟨h, he⟩
  · rw [he]
  · omega

/-! ### String-level helpers -/

/-- Lowercase a string (list of characters). -/
def lowerL (l : List Char) : List Char := l.map jsLower

/-- JS `String.prototype.trim`: drop whitespace from both ends. -/
def trimL (l : List Char) : List Char :=
  ((l.dropWhile isWsChar).reverse.dropWhile isWsChar).reverse

theorem lowerL_idem (l : List Char) : lowerL (lowerL l) = lowerL l := by
  unfold lowerL
  rw [List.map_map]
  exact List.map_congr_left fun c _ => jsLower_idem c

theorem lowerL_append (a b : List Char) : lowerL (a ++ b) = lowerL a ++ lowerL b := by
  simp [lowerL]

/-! ### URL normalization (`normalizeUrl` in `scripts/cron.js`)

```js
function normalizeUrl(raw) {
  try {
    const u = new URL(raw.trim());
    u.protocol = 'https:';
    u.hostname = u.hostname.replace(/^www\./i, '');
    u.search   = '';
    u.hash     = '';
    u.pathname = u.pathname.replace(/\/+/g, '/').replace(/\/$/, '') || '/';
    return `https://${u.hostname}${u.pathname}`.toLowerCase();
  } catch {
    return raw.trim().toLowerCase();
  }
}
```
-/

/-- Regex `/\/+/g → '/'`: collapse every run of slashes to a single slash. -/
def collapseSlashes : List Char → List Char
  | [] => []
  | [c] => [c]
  | a :: b :: rest =>
    if a = '/' ∧ b = '/' then collapseSlashes (b :: rest)
    else a :: collapseSlashes (b :: rest)

/-- Regex `/\/$/ → ''`: remove one trailing slash if present. -/
def stripTrailingSlash (l : List Char) : List Char :=
  if l.getLast? = some '/' then l.dropLast else l

/-- The two pathname replaces followed by JS `|| '/'` (an empty string is
falsy, so an emptied path becomes the root path). -/
def normPath (l : List Char) : List Char :=
  if stripTrailingSlash (collapseSlashes l) = [] then ['/']
  else stripTrailingSlash (collapseSlashes l)

/-- Regex test `/^www\./i`: the first four characters are `w`/`W`, `w`/`W`,
`w`/`W`, `.` (code points 119/87 and 46). -/
def isWwwDot (l : List Char) : Bool :=
  match l with
  | a :: b :: c :: d :: _ =>
    decide ((a.toNat = 119 ∨ a.toNat = 87) ∧ (b.toNat = 119 ∨ b.toNat = 87) ∧
      (c.toNat = 119 ∨ c.toNat = 87) ∧ d.toNat = 46)
  | _ => false

/-- Hostname replace `/^www\./i → ''`: strip one leading `www.` label. -/
def stripWww (l : List Char) : List Char :=
  if isWwwDot l then l.drop 4 else l

/-- The mutable fields of a WHATWG `URL` object that `normalizeUrl` reads or
writes (the port and userinfo are dropped by the template string). -/
structure URLObj where
  hostname : List Char
  pathname : List Char
  search : List Char
  hash : List Char

def httpsScheme : List Char := ['h','t','t','p','s',':','/','/']

def httpScheme : List Char := ['h','t','t','p',':','/','/']

/-- The body of `normalizeUrl`, parameterized by the outcome of
`new URL(raw.trim())` (`none` models the thrown exception). The `some`
branch builds `https://` + stripped hostname + normalized pathname and
lowercases; the `none` branch is the `catch`. -/
def normalizeUrl (raw : List Char) (parsed : Option URLObj) : List Char :=
  match parsed with
  | none => lowerL (trimL raw)
  | some u => lowerL (httpsScheme ++ stripWww u.hostname ++ normPath u.pathname)

/-! ### A model of the WHATWG URL parser on the `http(s)` fragment

`jsParseURL` accepts `http://` or `https://` (case-insensitively), then a
nonempty hostname of letters/digits/`-`/`.`/`_`, an optional `:digits` port,
a path up to `?`/`#` containing no whitespace, a query up to `#`, and a
fragment. URLs outside this fragment (userinfo, IPv6 brackets, characters
the standard percent-encodes) are treated as unparsable, which `normalizeUrl`
handles through its `catch` branch. The parser lowercases the hostname, as
the standard does, and an empty path becomes `/`. -/

/-- Not a character that ends the port digits: `/`, `?`, `#`. -/
def notPortDelim (c : Char) : Bool :=
  decide (¬(c.toNat = 47 ∨ c.toNat = 63 ∨ c.toNat = 35))

/-- Match `https://` or `http://` case-insensitively and return the rest. -/
def stripSchemeCI (x : List Char) : Option (List Char) :=
  if lowerL (x.take 8) = httpsScheme then some (x.drop 8)
  else if lowerL (x.take 7) = httpScheme then some (x.drop 7)
  else none

def parseAfterHost (host rest : List Char) : Option URLObj :=
  if (rest.takeWhile notPathDelim).all pathOkChar then
    some ⟨lowerL host,
      if (rest.takeWhile notPathDelim).isEmpty then ['/']
      else rest.takeWhile notPathDelim,
      (rest.dropWhile notPathDelim).takeWhile notHashDelim,
      (rest.dropWhile notPathDelim).dropWhile notHashDelim⟩
  else none

def parseAfterScheme (rest : List Char) : Option URLObj :=
  if (rest.takeWhile notHostDelim).isEmpty
      ∨ ¬((rest.takeWhile notHostDelim).all hostChar) then none
  else if (rest.dropWhile notHostDelim).head? = some ':' then
    if ((rest.dropWhile notHostDelim).tail.takeWhile notPortDelim).all digitChar
    then
      parseAfterHost (rest.takeWhile notHostDelim)
        ((rest.dropWhile notHostDelim).tail.dropWhile notPortDelim)
    else none
  else parseAfterHost (rest.takeWhile notHostDelim) (rest.dropWhile notHostDelim)

def jsParseURL (x : List Char) : Option URLObj :=
  (stripSchemeCI x).bind parseAfterScheme

/-- The string-level normalizer: parse the trimmed input, falling back to
lowercase-trim on failure. This is the composition the script applies to
every URL it touches. -/
def normalizeUrlStr (raw : List Char) : List Char :=
  normalizeUrl raw (jsParseURL (trimL raw))

/-! ### Generic list lemmas used by the URL development -/

theorem takeWhile_lowerL (q : Char → Bool) (hq : ∀ c, q (jsLower c) = q c)
    (l : List Char) : (lowerL l).takeWhile q = lowerL (l.takeWhile q) := by
  unfold lowerL
  rw [List.takeWhile_map]
  have h : (q ∘ jsLower) = q := funext hq
  rw [h]

theorem dropWhile_lowerL (q : Char → Bool) (hq : ∀ c, q (jsLower c) = q c)
    (l : List Char) : (lowerL l).dropWhile q = lowerL (l.dropWhile q) := by
  unfold lowerL
  rw [List.dropWhile_map]
  have h : (q ∘ jsLower) = q := funext hq
  rw [h]

theorem all_lowerL (q : Char → Bool) (hq : ∀ c, q (jsLower c) = q c)
    (l : List Char) : (lowerL l).all q = l.all q := by
  unfold lowerL
  rw [List.all_map]
  congr 1
  funext c
  exact hq c

theorem isEmpty_lowerL (l : List Char) : (lowerL l).isEmpty = l.isEmpty := by
  cases l <;> rfl

theorem reverse_lowerL (l : List Char) : (lowerL l).reverse = lowerL l.reverse := by
  simp [lowerL]

theorem trimL_lowerL (l : List Char) : trimL (lowerL l) = lowerL (trimL l) := by
  unfold trimL
  rw [dropWhile_lowerL _ isWs_jsLower, reverse_lowerL,
    dropWhile_lowerL _ isWs_jsLower, reverse_lowerL]

theorem dropWhile_idem (p : α → Bool) (l : List α) :
    (l.dropWhile p).dropWhile p = l.dropWhile p := by
  induction l with
  | nil => rfl
  | cons c t ih =>
    by_cases h : p c
    · rw [List.dropWhile_cons_of_pos h]
      exact ih
    · rw [List.dropWhile_cons_of_neg h, List.dropWhile_cons_of_neg h]

theorem head?_dropWhile_false {p : α → Bool} {l : List α} {a : α}
    (h : (l.dropWhile p).head? = some a) : p a = false := by
  induction l with
  | nil => simp at h
  | cons c t ih =>
    by_cases hc : p c
    · rw [List.dropWhile_cons_of_pos hc] at h
      exact ih h
    · rw [List.dropWhile_cons_of_neg hc] at h
      simp at h
      rw [← h]
      exact Bool.eq_false_iff.mpr hc

theorem dropWhile_eq_self_of_head {p : α → Bool} {l : List α}
    (h : ∀ a, l.head? = some a → p a = false) : l.dropWhile p = l := by
  cases l with
  | nil => rfl
  | cons c t =>
    have hc := h c rfl
    exact List.dropWhile_cons_of_neg (by simp [hc])

theorem head?_of_pfx {l m : List α} {a : α} (hp : l <+: m)
    (h : l.head? = some a) : m.head? = some a := by
  rcases hp with ⟨t, ht⟩
  cases l with
  | nil => simp at h
  | cons c u =>
    simp at h
    rw [← ht, ← h]
    rfl

theorem dropRight_pfx (p : α → Bool) (l : List α) :
    (l.reverse.dropWhile p).reverse <+: l := by
  have h : l.reverse.dropWhile p <:+ l.reverse := List.dropWhile_suffix p
  have h2 := List.reverse_prefix.mpr h
  rwa [List.reverse_reverse] at h2

theorem trimL_idem (l : List Char) : trimL (trimL l) = trimL l := by
  unfold trimL
  set m := l.dropWhile isWsChar with hm
  have hdrop : (m.reverse.dropWhile isWsChar).reverse.dropWhile isWsChar
      = (m.reverse.dropWhile isWsChar).reverse := by
    apply dropWhile_eq_self_of_head
    intro a ha
    have hmem : m.head? = some a := head?_of_pfx (dropRight_pfx isWsChar m) ha
    exact head?_dropWhile_false (l := l) (by rw [← hm] at *; exact hmem)
  rw [hdrop, List.reverse_reverse, dropWhile_idem]

theorem trimL_of_all {l : List Char} (h : l.all (fun c => !isWsChar c)) :
    trimL l = l := by
  rw [List.all_eq_true] at h
  unfold trimL
  have h1 : l.dropWhile isWsChar = l := by
    apply dropWhile_eq_self_of_head
    intro a ha
    cases l with
    | nil => simp at ha
    | cons c t =>
      simp at ha
      subst ha
      have := h c (by simp)
      simpa using this
  rw [h1]
  have h2 : l.reverse.dropWhile isWsChar = l.reverse := by
    apply dropWhile_eq_self_of_head
    intro a ha
    have hmem : a ∈ l.reverse := by
      cases hrev : l.reverse with
      | nil => rw [hrev] at ha; simp at ha
      | cons c t => rw [hrev] at ha; simp at ha; subst ha; simp
    rw [List.mem_reverse] at hmem
    have := h a hmem
    simpa using this
  rw [h2, List.reverse_reverse]

/-! ### Properties of the path canonicalization -/

/-- Detector for two adjacent slashes anywhere in a string. -/
def hasDoubleSlash : List Char → Bool
  | a :: b :: r => (decide (a = '/') && decide (b = '/')) || hasDoubleSlash (b :: r)
  | _ => false

theorem collapse_head (x : Char) (xs : List Char) :
    (collapseSlashes (x :: xs)).head? = some x := by
  induction xs generalizing x with
  | nil => rfl
  | cons y r ih =>
    rw [collapseSlashes]
    by_cases h : x = '/' ∧ y = '/'
    · rw [if_pos h, ih y, h.1, h.2]
    · rw [if_neg h]
      rfl

theorem collapse_noDouble (l : List Char) :
    hasDoubleSlash (collapseSlashes l) = false := by
  induction l with
  | nil => rfl
  | cons a t ih =>
    cases t with
    | nil => rfl
    | cons b r =>
      rw [collapseSlashes]
      by_cases h : a = '/' ∧ b = '/'
      · rw [if_pos h]
        exact ih
      · rw [if_neg h]
        have hh := collapse_head b r
        cases hc : collapseSlashes (b :: r) with
        | nil => rfl
        | cons c s =>
          rw [hc] at hh
          simp at hh
          subst hh
          rw [hasDoubleSlash]
          rw [hc] at ih
          rw [ih]
          simp only [Bool.or_false, Bool.and_eq_false_iff, decide_eq_false_iff_not]
          by_cases ha : a = '/'
          · right
            intro hb
            exact h ⟨ha, hb⟩
          · left
            exact ha

theorem collapse_fix {l : List Char} (h : hasDoubleSlash l = false) :
    collapseSlashes l = l := by
  induction l with
  | nil => rfl
  | cons a t ih =>
    cases t with
    | nil => rfl
    | cons b r =>
      rw [hasDoubleSlash] at h
      simp only [Bool.or_eq_false_iff, Bool.and_eq_false_iff,
        decide_eq_false_iff_not] at h
      rw [collapseSlashes, if_neg (by tauto), ih h.2]

theorem collapse_all {p : Char → Bool} {l : List Char} (h : l.all p = true) :
    (collapseSlashes l).all p = true := by
  induction l with
  | nil => rfl
  | cons a t ih =>
    cases t with
    | nil => exact h
    | cons b r =>
      rw [List.all_cons, Bool.and_eq_true] at h
      rw [collapseSlashes]
      by_cases hc : a = '/' ∧ b = '/'
      · rw [if_pos hc]
        exact ih h.2
      · rw [if_neg hc, List.all_cons, Bool.and_eq_true]
        exact ⟨h.1, ih h.2⟩

theorem collapse_lowerL (l : List Char) :
    collapseSlashes (lowerL l) = lowerL (collapseSlashes l) := by
  induction l with
  | nil => rfl
  | cons a t ih =>
    cases t with
    | nil => rfl
    | cons b r =>
      have hl : lowerL (a :: b :: r) = jsLower a :: jsLower b :: lowerL r := rfl
      rw [hl, collapseSlashes, collapseSlashes]
      by_cases h : a = '/' ∧ b = '/'
      · rw [if_pos h, if_pos ⟨(slash_jsLower a).mpr h.1, (slash_jsLower b).mpr h.2⟩]
        exact ih
      · have h2 : ¬(jsLower a = '/' ∧ jsLower b = '/') := by
          intro hc
          exact h ⟨(slash_jsLower a).mp hc.1, (slash_jsLower b).mp hc.2⟩
        rw [if_neg h, if_neg h2]
        have ht : lowerL (b :: r) = jsLower b :: lowerL r := rfl
        rw [← ht, ih]
        rfl

theorem getLast?_lowerL_slash (l : List Char) :
    ((lowerL l).getLast? = some '/') ↔ (l.getLast? = some '/') := by
  rw [← List.head?_reverse, ← List.head?_reverse, reverse_lowerL]
  unfold lowerL
  rw [List.head?_map]
  cases l.reverse.head? with
  | none => simp
  | some c =>
    constructor
    · intro hx
      have hj : jsLower c = '/' := by simpa using hx
      simpa using (slash_jsLower c).mp hj
    · intro hx
      have hc : c = '/' := by simpa using hx
      simp [(slash_jsLower c).mpr hc]

theorem dropLast_lowerL (l : List Char) :
    (lowerL l).dropLast = lowerL l.dropLast := by
  simp [lowerL, List.map_dropLast]

theorem strip_lowerL (l : List Char) :
    stripTrailingSlash (lowerL l) = lowerL (stripTrailingSlash l) := by
  unfold stripTrailingSlash
  by_cases h : l.getLast? = some '/'
  · rw [if_pos h, if_pos ((getLast?_lowerL_slash l).mpr h), dropLast_lowerL]
  · rw [if_neg h, if_neg (fun hc => h ((getLast?_lowerL_slash l).mp hc))]

theorem hasDouble_append_left {x y : List Char}
    (h : hasDoubleSlash (x ++ y) = false) : hasDoubleSlash x = false := by
  induction x with
  | nil => rfl
  | cons a t ih =>
    cases t with
    | nil => rfl
    | cons b r =>
      rw [List.cons_append, List.cons_append, hasDoubleSlash] at h
      rw [← List.cons_append] at h
      simp only [Bool.or_eq_false_iff] at h
      rw [hasDoubleSlash]
      simp only [Bool.or_eq_false_iff]
      exact ⟨h.1, ih h.2⟩

theorem hasDouble_concat_slash {y : List Char} (h : y.getLast? = some '/') :
    hasDoubleSlash (y ++ ['/']) = true := by
  induction y with
  | nil => simp at h
  | cons a t ih =>
    cases t with
    | nil =>
      simp at h
      subst h
      rfl
    | cons b r =>
      rw [List.getLast?_cons_cons] at h
      show hasDoubleSlash (a :: b :: (r ++ ['/'])) = true
      rw [hasDoubleSlash]
      have hb := ih h
      rw [List.cons_append] at hb
      rw [hb]
      simp

theorem strip_not_trailing {l : List Char} (h : hasDoubleSlash l = false) :
    (stripTrailingSlash l).getLast? ≠ some '/' := by
  unfold stripTrailingSlash
  by_cases hl : l.getLast? = some '/'
  · rw [if_pos hl]
    intro hc
    have hne : l ≠ [] := by
      intro hnil
      rw [hnil] at hl
      simp at hl
    have hdec : l.dropLast ++ ['/'] = l := by
      have hg := List.dropLast_append_getLast hne
      have : l.getLast hne = '/' := by
        have := List.getLast?_eq_getLast l hne
        rw [this] at hl
        exact Option.some_inj.mp hl
      rw [this] at hg
      exact hg
    have hd := hasDouble_concat_slash hc
    rw [hdec] at hd
    rw [h] at hd
    exact Bool.false_ne_true hd
  · rw [if_neg hl]
    exact hl

theorem normPath_ne_nil (l : List Char) : normPath l ≠ [] := by
  unfold normPath
  by_cases h : stripTrailingSlash (collapseSlashes l) = []
  · rw [if_pos h]
    simp
  · rw [if_neg h]
    exact h

theorem normPath_getLast {l : List Char}
    (h : (normPath l).getLast? = some '/') : normPath l = ['/'] := by
  unfold normPath at *
  by_cases hc : stripTrailingSlash (collapseSlashes l) = []
  · rw [if_pos hc]
  · rw [if_neg hc] at h
    exact absurd h (strip_not_trailing (collapse_noDouble l))

theorem normPath_noDouble (l : List Char) :
    hasDoubleSlash (normPath l) = false := by
  unfold normPath
  by_cases hc : stripTrailingSlash (collapseSlashes l) = []
  · rw [if_pos hc]
    rfl
  · rw [if_neg hc]
    rcases hs : collapseSlashes l with _ | ⟨a, t⟩
    · rw [stripTrailingSlash, hs] at hc
      simp at hc
    · have hnd : hasDoubleSlash (collapseSlashes l) = false := collapse_noDouble l
      rw [hs] at hnd
      unfold stripTrailingSlash
      rw [← hs]
      by_cases hg : (collapseSlashes l).getLast? = some '/'
      · rw [if_pos hg]
        have : (collapseSlashes l).dropLast ++ [(collapseSlashes l).getLast
            (by rw [hs]; simp)] = collapseSlashes l :=
          List.dropLast_append_getLast (by rw [hs]; simp)
        apply hasDouble_append_left (y := [(collapseSlashes l).getLast
            (by rw [hs]; simp)])
        rw [this]
        exact collapse_noDouble l
      · rw [if_neg hg]
        exact collapse_noDouble l

theorem normPath_idem (l : List Char) : normPath (normPath l) = normPath l := by
  have hfix : collapseSlashes (normPath l) = normPath l :=
    collapse_fix (normPath_noDouble l)
  by_cases hroot : normPath l = ['/']
  · rw [hroot]
    rfl
  · have hne := normPath_ne_nil l
    have hlast : (normPath l).getLast? ≠ some '/' := by
      intro hc
      exact hroot (normPath_getLast hc)
    rw [normPath, hfix, stripTrailingSlash, if_neg hlast, if_neg hne]

theorem normPath_lowerL (l : List Char) :
    normPath (lowerL l) = lowerL (normPath l) := by
  unfold normPath
  rw [collapse_lowerL, strip_lowerL]
  by_cases h : stripTrailingSlash (collapseSlashes l) = []
  · rw [if_pos h, h]
    rw [if_pos (show lowerL ([] : List Char) = [] from rfl)]
    rfl
  · rw [if_neg h, if_neg (by simp [lowerL, h])]

theorem head?_dropLast {l : List Char} {a : Char}
    (h : l.dropLast.head? = some a) : l.head? = some a := by
  cases l with
  | nil => simp at h
  | cons c t =>
    cases t with
    | nil => simp at h
    | cons b r =>
      rw [List.dropLast_cons₂] at h
      simp at h
      simp [h]

theorem normPath_head_slash {l : List Char} (h : l.head? = some '/') :
    (normPath l).head? = some '/' := by
  have hcol : (collapseSlashes l).head? = some '/' := by
    cases l with
    | nil => simp at h
    | cons c t =>
      simp at h
      subst h
      exact collapse_head '/' t
  unfold normPath
  by_cases he : stripTrailingSlash (collapseSlashes l) = []
  · rw [if_pos he]
    rfl
  · rw [if_neg he]
    unfold stripTrailingSlash at *
    by_cases hg : (collapseSlashes l).getLast? = some '/'
    · rw [if_pos hg] at he ⊢
      cases hd : (collapseSlashes l).dropLast.head? with
      | none =>
        rw [List.head?_eq_none_iff] at hd
        exact absurd hd he
      | some b =>
        have := head?_dropLast hd
        rw [hcol] at this
        exact this.symm
    · rw [if_neg hg]
      exact hcol

theorem dropLast_all {p : Char → Bool} {l : List Char} (h : l.all p = true) :
    l.dropLast.all p = true := by
  rw [List.all_eq_true] at h ⊢
  intro c hc
  exact h c (List.dropLast_subset l hc)

theorem normPath_all {p : Char → Bool} {l : List Char} (h : l.all p = true)
    (hs : p '/' = true) : (normPath l).all p = true := by
  unfold normPath
  by_cases he : stripTrailingSlash (collapseSlashes l) = []
  · rw [if_pos he]
    simp [hs]
  · rw [if_neg he]
    unfold stripTrailingSlash
    by_cases hg : (collapseSlashes l).getLast? = some '/'
    · rw [if_pos hg]
      exact dropLast_all (collapse_all h)
    · rw [if_neg hg]
      exact collapse_all h

/-! ### takeWhile / dropWhile support lemmas -/

theorem takeWhile_append_all {p : Char → Bool} {a : List Char}
    (h : a.all p = true) (b : List Char) :
    (a ++ b).takeWhile p = a ++ b.takeWhile p := by
  induction a with
  | nil => rfl
  | cons c t ih =>
    rw [List.all_cons, Bool.and_eq_true] at h
    rw [List.cons_append, List.takeWhile_cons_of_pos h.1, ih h.2]
    rfl

theorem dropWhile_append_all {p : Char → Bool} {a : List Char}
    (h : a.all p = true) (b : List Char) :
    (a ++ b).dropWhile p = b.dropWhile p := by
  induction a with
  | nil => rfl
  | cons c t ih =>
    rw [List.all_cons, Bool.and_eq_true] at h
    rw [List.cons_append, List.dropWhile_cons_of_pos h.1, ih h.2]

theorem takeWhile_eq_self_of_all {p : Char → Bool} {l : List Char}
    (h : l.all p = true) : l.takeWhile p = l := by
  induction l with
  | nil => rfl
  | cons c t ih =>
    rw [List.all_cons, Bool.and_eq_true] at h
    rw [List.takeWhile_cons_of_pos h.1, ih h.2]

theorem dropWhile_eq_nil_of_all {p : Char → Bool} {l : List Char}
    (h : l.all p = true) : l.dropWhile p = [] := by
  induction l with
  | nil => rfl
  | cons c t ih =>
    rw [List.all_cons, Bool.and_eq_true] at h
    rw [List.dropWhile_cons_of_pos h.1, ih h.2]

theorem head?_takeWhile {p : Char → Bool} {l : List Char} {c : Char}
    {t : List Char} (h : l.takeWhile p = c :: t) :
    l.head? = some c ∧ p c = true := by
  cases l with
  | nil => simp at h
  | cons a s =>
    by_cases hp : p a
    · rw [List.takeWhile_cons_of_pos hp] at h
      simp at h
      exact ⟨by simp [h.1], by rw [← h.1]; exact hp⟩
    · rw [List.takeWhile_cons_of_neg hp] at h
      simp at h

theorem head?_lowerL (l : List Char) :
    (lowerL l).head? = l.head?.map jsLower := by
  unfold lowerL
  exact List.head?_map jsLower l

theorem tail_lowerL (l : List Char) : (lowerL l).tail = lowerL l.tail := by
  cases l <;> rfl

/-! ### Pointwise implications between character classes -/

theorem hostChar_imp_notHostDelim {c : Char} (h : hostChar c = true) :
    notHostDelim c = true := by
  simp only [hostChar, decide_eq_true_eq] at h
  simp only [notHostDelim, decide_eq_true_eq]
  omega

theorem hostChar_imp_not_ws {c : Char} (h : hostChar c = true) :
    isWsChar c = false := by
  simp only [hostChar, decide_eq_true_eq] at h
  simp only [isWsChar, decide_eq_false_iff_not]
  omega

theorem pathOk_imp_notPathDelim {c : Char} (h : pathOkChar c = true) :
    notPathDelim c = true := by
  simp only [pathOkChar, Bool.and_eq_true] at h
  exact h.2

theorem pathOk_imp_not_ws {c : Char} (h : pathOkChar c = true) :
    isWsChar c = false := by
  simp only [pathOkChar, Bool.and_eq_true, Bool.not_eq_eq_eq_not,
    Bool.not_true] at h
  exact h.1

theorem all_imp {p q : Char → Bool} (hpq : ∀ c, p c = true → q c = true)
    {l : List Char} (h : l.all p = true) : l.all q = true := by
  rw [List.all_eq_true] at h ⊢
  intro c hc
  exact hpq c (h c hc)

/-! ### Parser inversion: invariants of successfully parsed URL objects -/

theorem parseAfterHost_inv {host rest : List Char} {u : URLObj}
    (hd : ∀ a, rest.head? = some a → notPathDelim a = false ∨ a = '/')
    (h : parseAfterHost host rest = some u) :
    u.hostname = lowerL host ∧ u.pathname.head? = some '/' ∧
      u.pathname.all pathOkChar = true ∧ u.pathname ≠ [] := by
  unfold parseAfterHost at h
  by_cases hall : (rest.takeWhile notPathDelim).all pathOkChar = true
  · rw [if_pos hall] at h
    cases hu : (rest.takeWhile notPathDelim) with
    | nil =>
      rw [hu] at h hall
      simp only [List.isEmpty_nil, if_pos] at h
      have heq := Option.some_inj.mp h
      subst heq
      refine ⟨rfl, rfl, by rfl, by simp⟩
    | cons c t =>
      have hh := head?_takeWhile hu
      have hslash : c = '/' := by
        rcases hd c hh.1 with hf | hs
        · rw [hh.2] at hf
          exact absurd hf (by simp)
        · exact hs
      rw [hu] at h hall
      simp only [List.isEmpty_cons, Bool.false_eq_true, if_false] at h
      have heq := Option.some_inj.mp h
      subst heq
      refine ⟨rfl, by simp [hslash], hall, by simp⟩
  · rw [if_neg hall] at h
    simp at h

theorem head?_dropWhile_delim {p : Char → Bool} {l : List Char} {a : Char}
    (h : (l.dropWhile p).head? = some a) : p a = false :=
  head?_dropWhile_false h

theorem jsParseURL_inv {x : List Char} {u : URLObj}
    (h : jsParseURL x = some u) :
    u.hostname.all hostChar = true ∧ u.hostname ≠ [] ∧
      lowerL u.hostname = u.hostname ∧ u.pathname.head? = some '/' ∧
      u.pathname.all pathOkChar = true := by
  unfold jsParseURL at h
  cases hs : stripSchemeCI x with
  | none => rw [hs] at h; simp at h
  | some rest =>
    rw [hs, Option.some_bind] at h
    unfold parseAfterScheme at h
    by_cases hhost : (rest.takeWhile notHostDelim).isEmpty
        ∨ ¬((rest.takeWhile notHostDelim).all hostChar)
    · rw [if_pos hhost] at h
      simp at h
    · rw [if_neg hhost] at h
      push_neg at hhost
      have hne : rest.takeWhile notHostDelim ≠ [] := by
        intro hc
        rw [hc] at hhost
        exact hhost.1 rfl
      have hall : (rest.takeWhile notHostDelim).all hostChar = true := by
        simpa using hhost.2
      have hmain : ∀ rest3 : List Char,
          (∀ a, rest3.head? = some a → notPathDelim a = false ∨ a = '/') →
          parseAfterHost (rest.takeWhile notHostDelim) rest3 = some u →
          u.hostname.all hostChar = true ∧ u.hostname ≠ [] ∧
            lowerL u.hostname = u.hostname ∧ u.pathname.head? = some '/' ∧
            u.pathname.all pathOkChar = true := by
        intro rest3 hd3 hp
        obtain ⟨hu1, hu2, hu3, hu4⟩ := parseAfterHost_inv hd3 hp
        refine ⟨?_, ?_, ?_, hu2, hu3⟩
        · rw [hu1]
          rw [all_lowerL hostChar hostChar_jsLower]
          exact hall
        · rw [hu1]
          simpa [lowerL] using hne
        · rw [hu1, lowerL_idem]
      by_cases hcolon : (rest.dropWhile notHostDelim).head? = some ':'
      · rw [if_pos hcolon] at h
        by_cases hport :
            ((rest.dropWhile notHostDelim).tail.takeWhile notPortDelim).all
              digitChar = true
        · rw [if_pos hport] at h
          refine hmain _ ?_ h
          intro a ha
          have hf := head?_dropWhile_delim ha
          simp only [notPortDelim, decide_eq_false_iff_not, not_not] at hf
          simp only [notPathDelim, decide_eq_false_iff_not, not_not]
          by_cases h47 : a.toNat = 47
          · right
            rw [char_eq_iff]
            simpa using h47
          · left
            omega
        · rw [if_neg (by simpa using hport)] at h
          simp at h
      · rw [if_neg hcolon] at h
        refine hmain _ ?_ h
        intro a ha
        have hf := head?_dropWhile_delim ha
        simp only [notHostDelim, decide_eq_false_iff_not, not_not] at hf
        have hnc : a.toNat ≠ 58 := by
          intro hc
          apply hcolon
          rw [ha]
          have : a = ':' := by
            rw [char_eq_iff]
            simpa using hc
          rw [this]
        simp only [notPathDelim, decide_eq_false_iff_not, not_not]
        by_cases h47 : a.toNat = 47
        · right
          rw [char_eq_iff]
          simpa using h47
        · left
          omega

theorem notPortDelim_jsLower (c : Char) : notPortDelim (jsLower c) = notPortDelim c := by
  rcases jsLower_spec c with ⟨h, he⟩ | ⟨h, he⟩
  · rw [he]
  · simp only [notPortDelim, decide_eq_decide, he]
    omega

/-! ### Re-parsing the normalizer's own output -/

theorem jsParseURL_https {hn p : List Char}
    (hh : hn.all hostChar = true) (hne : hn ≠ [])
    (hp : p.head? = some '/') (hpok : p.all pathOkChar = true) :
    jsParseURL (httpsScheme ++ hn ++ p) = some ⟨lowerL hn, p, [], []⟩ := by
  cases p with
  | nil => simp at hp
  | cons c t =>
    have hc : c = '/' := by simpa using hp
    subst hc
    have hassoc : httpsScheme ++ hn ++ ('/' :: t)
        = httpsScheme ++ (hn ++ ('/' :: t)) := List.append_assoc _ _ _
    have hlen : httpsScheme.length = 8 := rfl
    have htake : (httpsScheme ++ (hn ++ ('/' :: t))).take 8 = httpsScheme :=
      List.take_left' hlen
    have hlow : lowerL httpsScheme = httpsScheme := by decide
    have hdrop : (httpsScheme ++ (hn ++ ('/' :: t))).drop 8 = hn ++ ('/' :: t) :=
      List.drop_left' hlen
    unfold jsParseURL stripSchemeCI
    rw [hassoc, htake, hlow, if_pos rfl, Option.some_bind, hdrop]
    unfold parseAfterScheme
    have hhnd : hn.all notHostDelim = true :=
      all_imp (fun c hc => hostChar_imp_notHostDelim hc) hh
    have hslashd : notHostDelim '/' = false := by decide
    have htw : (hn ++ ('/' :: t)).takeWhile notHostDelim = hn := by
      rw [takeWhile_append_all hhnd, List.takeWhile_cons_of_neg (by simp [hslashd]),
        List.append_nil]
    have hdw : (hn ++ ('/' :: t)).dropWhile notHostDelim = '/' :: t := by
      rw [dropWhile_append_all hhnd, List.dropWhile_cons_of_neg (by simp [hslashd])]
    rw [htw, hdw]
    rw [if_neg (by
      intro hcon
      rcases hcon with hcon | hcon
      · rw [List.isEmpty_iff] at hcon
        exact hne hcon
      · exact hcon hh)]
    rw [if_neg (by
      intro hcon
      have : '/' = ':' := by simpa using hcon
      exact absurd this (by decide))]
    unfold parseAfterHost
    have hnpd : ('/' :: t).all notPathDelim = true :=
      all_imp (fun c hc => pathOk_imp_notPathDelim hc) hpok
    rw [takeWhile_eq_self_of_all hnpd, dropWhile_eq_nil_of_all hnpd]
    rw [if_pos hpok]
    simp

theorem jsParseURL_https_nilhost {p : List Char} (hp : p.head? = some '/') :
    jsParseURL (httpsScheme ++ p) = none := by
  cases p with
  | nil => simp at hp
  | cons c t =>
    have hc : c = '/' := by simpa using hp
    subst hc
    have hlen : httpsScheme.length = 8 := rfl
    have htake : (httpsScheme ++ ('/' :: t)).take 8 = httpsScheme :=
      List.take_left' hlen
    have hlow : lowerL httpsScheme = httpsScheme := by decide
    have hdrop : (httpsScheme ++ ('/' :: t)).drop 8 = '/' :: t :=
      List.drop_left' hlen
    unfold jsParseURL stripSchemeCI
    rw [htake, hlow, if_pos rfl, Option.some_bind, hdrop]
    unfold parseAfterScheme
    rw [List.takeWhile_cons_of_neg (by decide)]
    simp

/-! ### The parser commutes with lowercasing (needed for unparsable inputs) -/

theorem take_lowerL (n : Nat) (l : List Char) :
    (lowerL l).take n = lowerL (l.take n) := by
  simp [lowerL, List.map_take]

theorem drop_lowerL (n : Nat) (l : List Char) :
    (lowerL l).drop n = lowerL (l.drop n) := by
  simp [lowerL, List.map_drop]

theorem stripSchemeCI_lower (x : List Char) :
    stripSchemeCI (lowerL x) = (stripSchemeCI x).map lowerL := by
  unfold stripSchemeCI
  rw [take_lowerL, lowerL_idem, take_lowerL, lowerL_idem]
  by_cases h8 : lowerL (x.take 8) = httpsScheme
  · rw [if_pos h8, if_pos h8, drop_lowerL]
    rfl
  · rw [if_neg h8, if_neg h8]
    by_cases h7 : lowerL (x.take 7) = httpScheme
    · rw [if_pos h7, if_pos h7, drop_lowerL]
      rfl
    · rw [if_neg h7, if_neg h7]
      rfl

theorem parseAfterHost_lower_none {host rest : List Char}
    (h : parseAfterHost host rest = none) :
    parseAfterHost (lowerL host) (lowerL rest) = none := by
  unfold parseAfterHost at h ⊢
  rw [takeWhile_lowerL _ notPathDelim_jsLower, all_lowerL _ pathOk_jsLower]
  by_cases hall : (rest.takeWhile notPathDelim).all pathOkChar = true
  · rw [if_pos hall] at h
    simp at h
  · rw [if_neg hall]

theorem head?_lowerL_colon (l : List Char) :
    ((lowerL l).head? = some ':') ↔ (l.head? = some ':') := by
  rw [head?_lowerL]
  cases l.head? with
  | none => simp
  | some c =>
    constructor
    · intro hx
      have hj : jsLower c = ':' := by simpa using hx
      simpa using (colonChar_jsLower c).mp hj
    · intro hx
      have hc : c = ':' := by simpa using hx
      simp [(colonChar_jsLower c).mpr hc]

theorem jsParseURL_lower_none {x : List Char} (h : jsParseURL x = none) :
    jsParseURL (lowerL x) = none := by
  unfold jsParseURL at h ⊢
  rw [stripSchemeCI_lower]
  cases hs : stripSchemeCI x with
  | none => rfl
  | some rest =>
    rw [hs, Option.some_bind] at h
    show parseAfterScheme (lowerL rest) = none
    unfold parseAfterScheme at h ⊢
    rw [takeWhile_lowerL _ notHostDelim_jsLower, isEmpty_lowerL,
      all_lowerL _ hostChar_jsLower, dropWhile_lowerL _ notHostDelim_jsLower]
    by_cases h1 : (rest.takeWhile notHostDelim).isEmpty = true
        ∨ ¬((rest.takeWhile notHostDelim).all hostChar) = true
    · rw [if_pos h1]
    · rw [if_neg h1] at h ⊢
      by_cases h2 : (rest.dropWhile notHostDelim).head? = some ':'
      · rw [if_pos h2] at h
        rw [if_pos ((head?_lowerL_colon _).mpr h2), tail_lowerL,
          takeWhile_lowerL _ notPortDelim_jsLower, all_lowerL _ digit_jsLower]
        by_cases h3 : ((rest.dropWhile notHostDelim).tail.takeWhile
            notPortDelim).all digitChar = true
        · rw [if_pos h3] at h
          rw [if_pos h3, dropWhile_lowerL _ notPortDelim_jsLower]
          exact parseAfterHost_lower_none h
        · rw [if_neg h3]
      · rw [if_neg h2] at h
        rw [if_neg (fun hc => h2 ((head?_lowerL_colon _).mp hc))]
        exact parseAfterHost_lower_none h

/-! ### Assembled facts about `normalizeUrlStr` -/

theorem all_drop_char {p : Char → Bool} {l : List Char} (h : l.all p = true)
    (n : Nat) : (l.drop n).all p = true := by
  rw [List.all_eq_true] at h ⊢
  intro c hc
  exact h c (List.drop_subset n l hc)

theorem stripWww_all {p : Char → Bool} {l : List Char} (h : l.all p = true) :
    (stripWww l).all p = true := by
  unfold stripWww
  by_cases hw : isWwwDot l = true
  · rw [if_pos hw]
    exact all_drop_char h 4
  · rw [if_neg hw]
    exact h

theorem lowerL_drop (n : Nat) (l : List Char) :
    lowerL (l.drop n) = (lowerL l).drop n := by
  simp [lowerL, List.map_drop]

theorem stripWww_of_lowered {l : List Char} (h : lowerL l = l) :
    lowerL (stripWww l) = stripWww l := by
  unfold stripWww
  by_cases hw : isWwwDot l = true
  · rw [if_pos hw, lowerL_drop, h]
  · rw [if_neg hw, h]

theorem httpsScheme_not_ws : httpsScheme.all (fun c => !isWsChar c) = true := by
  decide

theorem normalizeUrl_some_decomp (raw : List Char) (u : URLObj) :
    normalizeUrl raw (some u)
      = httpsScheme ++ lowerL (stripWww u.hostname) ++ lowerL (normPath u.pathname) := by
  show lowerL (httpsScheme ++ stripWww u.hostname ++ normPath u.pathname) = _
  rw [lowerL_append, lowerL_append]
  have hlow : lowerL httpsScheme = httpsScheme := by decide
  rw [hlow]

/-- C6: `normalizeUrl` is a total function. On a parse failure it returns the
lowercase-trimmed original; on a parsed URL it forces the `https` scheme,
strips one leading `www.` host label, ignores the query and the fragment,
collapses repeated path separators, strips one trailing path separator with
the root path normalizing to `/`, and lower-cases the entire result. -/
theorem C6_normalize_total_canonical (raw : List Char) (u : URLObj)
    (s hsh l : List Char) :
    normalizeUrl raw none = lowerL (trimL raw)
    ∧ normalizeUrl raw (some u)
        = httpsScheme ++ lowerL (stripWww u.hostname) ++ lowerL (normPath u.pathname)
    ∧ (normalizeUrl raw (some u)).take 8 = httpsScheme
    ∧ normalizeUrl raw (some ⟨u.hostname, u.pathname, s, hsh⟩)
        = normalizeUrl raw (some u)
    ∧ lowerL (normalizeUrl raw (some u)) = normalizeUrl raw (some u)
    ∧ lowerL (normalizeUrl raw none) = normalizeUrl raw none
    ∧ stripWww u.hostname
        = (if isWwwDot u.hostname then u.hostname.drop 4 else u.hostname)
    ∧ hasDoubleSlash (normPath l) = false
    ∧ (normPath l = ['/'] ∨ (normPath l).getLast? ≠ some '/')
    ∧ normPath l ≠ []
    ∧ normPath [] = ['/'] := by
  refine ⟨rfl, normalizeUrl_some_decomp raw u, ?_, rfl, ?_, ?_, rfl, ?_, ?_, ?_, ?_⟩
  · rw [normalizeUrl_some_decomp raw u, List.append_assoc]
    exact List.take_left' rfl
  · show lowerL (lowerL _) = lowerL _
    exact lowerL_idem _
  · show lowerL (lowerL _) = lowerL _
    exact lowerL_idem _
  · exact normPath_noDouble l
  · by_cases hg : (normPath l).getLast? = some '/'
    · exact Or.inl (normPath_getLast hg)
    · exact Or.inr hg
  · exact normPath_ne_nil l
  · rfl

/-- C7 counterexample: normalization is not idempotent. A hostname with a
doubled `www.www.` prefix loses one label per pass, so a second application
changes the result. -/
theorem C7_counterexample :
    normalizeUrlStr (normalizeUrlStr ('h' :: 't' :: 't' :: 'p' :: 's' :: ':' :: '/' :: '/' ::
        'w' :: 'w' :: 'w' :: '.' :: 'w' :: 'w' :: 'w' :: '.' :: 'e' :: 'x' :: 'a' :: 'm' :: 'p' :: 'l' ::
        'e' :: '.' :: 'c' :: 'o' :: 'm' :: '/'  :: []))
      ≠ normalizeUrlStr ('h' :: 't' :: 't' :: 'p' :: 's' :: ':' :: '/' :: '/' ::
        'w' :: 'w' :: 'w' :: '.' :: 'w' :: 'w' :: 'w' :: '.' :: 'e' :: 'x' :: 'a' :: 'm' :: 'p' :: 'l' ::
        'e' :: '.' :: 'c' :: 'o' :: 'm' :: '/'  :: []) := by
  decide

/-- C7 amended: `normalize (normalize u) = normalize u` holds for every
input except those whose parsed hostname still begins with a `www.` label
after the single strip (i.e. hostnames with a doubled `www.www.` prefix);
on such inputs the second pass strips a further label. -/
theorem C7_normalize_idem_amended (raw : List Char)
    (hww : ∀ u, jsParseURL (trimL raw) = some u →
      isWwwDot (stripWww u.hostname) = false) :
    normalizeUrlStr (normalizeUrlStr raw) = normalizeUrlStr raw := by
  cases hp : jsParseURL (trimL raw) with
  | none =>
    have h1 : normalizeUrlStr raw = lowerL (trimL raw) := by
      unfold normalizeUrlStr normalizeUrl
      rw [hp]
    have hx : trimL (lowerL (trimL raw)) = lowerL (trimL raw) := by
      rw [trimL_lowerL, trimL_idem]
    have hp2 : jsParseURL (trimL (lowerL (trimL raw))) = none := by
      rw [hx]
      exact jsParseURL_lower_none hp
    rw [h1]
    show normalizeUrl _ (jsParseURL (trimL (lowerL (trimL raw))))
        = lowerL (trimL raw)
    rw [hp2]
    show lowerL (trimL (lowerL (trimL raw))) = lowerL (trimL raw)
    rw [hx, lowerL_idem]
  | some u =>
    obtain ⟨hall, hne, hlowh, hph, hpok⟩ := jsParseURL_inv hp
    have hwwu := hww u hp
    have h1 : normalizeUrlStr raw
        = httpsScheme ++ lowerL (stripWww u.hostname) ++ lowerL (normPath u.pathname) := by
      unfold normalizeUrlStr
      rw [hp]
      exact normalizeUrl_some_decomp raw u
    have hHs : lowerL (stripWww u.hostname) = stripWww u.hostname :=
      stripWww_of_lowered hlowh
    have hHall : (stripWww u.hostname).all hostChar = true := stripWww_all hall
    have hPh : (lowerL (normPath u.pathname)).head? = some '/' := by
      rw [head?_lowerL, normPath_head_slash hph]
      have : jsLower '/' = '/' := by decide
      simp [this]
    have hPok : (lowerL (normPath u.pathname)).all pathOkChar = true := by
      rw [all_lowerL _ pathOk_jsLower]
      exact normPath_all hpok (by decide)
    have hPlow : lowerL (lowerL (normPath u.pathname)) = lowerL (normPath u.pathname) :=
      lowerL_idem _
    have hPnorm : normPath (lowerL (normPath u.pathname)) = lowerL (normPath u.pathname) := by
      rw [normPath_lowerL, normPath_idem]
    have houtNoWs : (httpsScheme ++ lowerL (stripWww u.hostname)
        ++ lowerL (normPath u.pathname)).all (fun c => !isWsChar c) = true := by
      rw [List.all_append, List.all_append]
      simp only [Bool.and_eq_true]
      refine ⟨⟨httpsScheme_not_ws, ?_⟩, ?_⟩
      · rw [hHs]
        exact all_imp (fun c hc => by rw [hostChar_imp_not_ws hc]; rfl) hHall
      · exact all_imp (fun c hc => by rw [pathOk_imp_not_ws hc]; rfl) hPok
    have htrim : trimL (httpsScheme ++ lowerL (stripWww u.hostname)
        ++ lowerL (normPath u.pathname))
        = httpsScheme ++ lowerL (stripWww u.hostname) ++ lowerL (normPath u.pathname) :=
      trimL_of_all houtNoWs
    rw [h1]
    have houtNoWs2 : (httpsScheme ++ lowerL (normPath u.pathname)).all
        (fun c => !isWsChar c) = true := by
      rw [List.all_append]
      simp only [Bool.and_eq_true]
      exact ⟨httpsScheme_not_ws,
        all_imp (fun c hc => by rw [pathOk_imp_not_ws hc]; rfl) hPok⟩
    have hlowhttps : lowerL httpsScheme = httpsScheme := by decide
    cases hHnil : stripWww u.hostname with
    | nil =>
      have happ : httpsScheme ++ lowerL [] ++ lowerL (normPath u.pathname)
          = httpsScheme ++ lowerL (normPath u.pathname) := by
        simp [lowerL]
      rw [happ]
      show normalizeUrl _
          (jsParseURL (trimL (httpsScheme ++ lowerL (normPath u.pathname)))) = _
      rw [trimL_of_all houtNoWs2]
      rw [jsParseURL_https_nilhost hPh]
      show lowerL (trimL (httpsScheme ++ lowerL (normPath u.pathname))) = _
      rw [trimL_of_all houtNoWs2, lowerL_append]
      rw [hlowhttps, hPlow]
    | cons hc ht =>
      rw [← hHnil]
      have hHne : stripWww u.hostname ≠ [] := by rw [hHnil]; simp
      have hsw : stripWww (stripWww u.hostname) = stripWww u.hostname := by
        have hW := hwwu
        generalize stripWww u.hostname = W at hW ⊢
        unfold stripWww
        rw [if_neg (by simp [hW])]
      show normalizeUrl _ (jsParseURL (trimL (httpsScheme ++ lowerL (stripWww u.hostname)
          ++ lowerL (normPath u.pathname)))) = _
      rw [htrim, hHs]
      rw [jsParseURL_https hHall hHne hPh hPok]
      show lowerL (httpsScheme ++ stripWww (lowerL (stripWww u.hostname))
          ++ normPath (lowerL (normPath u.pathname))) = _
      rw [hHs, hsw, hPnorm, lowerL_append, lowerL_append, hlowhttps, hHs, hPlow]

/-- C7 witness: a concrete input on which the amended idempotence theorem
applies (an ordinary hostname without a doubled `www.` prefix). -/
theorem C7_witness :
    normalizeUrlStr (normalizeUrlStr ('h' :: 't' :: 't' :: 'p' :: 's' :: ':' :: '/' :: '/' ::
        'e' :: 'x' :: 'a' :: 'm' :: 'p' :: 'l' :: 'e' :: '.' :: 'c' :: 'o' :: 'm' :: '/' :: 'a'  :: []))
      = normalizeUrlStr ('h' :: 't' :: 't' :: 'p' :: 's' :: ':' :: '/' :: '/' ::
        'e' :: 'x' :: 'a' :: 'm' :: 'p' :: 'l' :: 'e' :: '.' :: 'c' :: 'o' :: 'm' :: '/' :: 'a'  :: []) := by
  apply C7_normalize_idem_amended
  intro u hu
  have hev : jsParseURL (trimL ('h' :: 't' :: 't' :: 'p' :: 's' :: ':' :: '/' :: '/' ::
      'e' :: 'x' :: 'a' :: 'm' :: 'p' :: 'l' :: 'e' :: '.' :: 'c' :: 'o' :: 'm' :: '/' :: 'a'  :: []))
      = some ⟨'e' :: 'x' :: 'a' :: 'm' :: 'p' :: 'l' :: 'e' :: '.' :: 'c' :: 'o' :: 'm'  :: [],
          '/' :: 'a'  :: [], [], []⟩ := by
    rfl
  rw [hev] at hu
  have hueq := Option.some_inj.mp hu
  rw [← hueq]
  decide

/-! ### Token-budget chunker (`splitIntoTokenChunks` in `scripts/cron.js`)

```js
function splitIntoTokenChunks(text, contextWindow, promptOverhead = 300, overlap = 100) {
  const tokens      = encode(text);
  const maxPerChunk = contextWindow - promptOverhead;
  const chunks      = [];
  let start         = 0;
  while (start < tokens.length) {
    const end = Math.min(start + maxPerChunk, tokens.length);
    chunks.push(decode(tokens.slice(start, end)));
    if (end === tokens.length) break;
    start = Math.max(0, end - overlap);
  }
  return chunks;
}
```

The tokenizer `encode`/`decode` pair is abstracted: the model works directly
on the token list (`List Nat`) and chunks are token lists. Arithmetic is on
`Int` because `maxPerChunk` can be negative. The loop is given explicit
fuel; `tokens.length + 1` iterations always suffice when the loop
terminates, and a run that exhausts every fuel bound is the embedding of a
JS infinite loop. -/

/-- Index clamping of JS `Array.prototype.slice`. -/
def jsClamp (len : Nat) (k : Int) : Nat :=
  if k < 0 then ((len : Int) + k).toNat else min k.toNat len

/-- JS `tokens.slice(s, e)` on token lists. -/
def jsSlice (l : List Nat) (s e : Int) : List Nat :=
  (l.take (jsClamp l.length e)).drop (jsClamp l.length s)

/-- The chunking `while` loop. `none` means the fuel ran out. -/
def splitLoop (tokens : List Nat) (mpc overlap : Int) :
    Nat → Int → Option (List (List Nat))
  | 0, _ => none
  | fuel+1, start =>
    if start < (tokens.length : Int) then
      if min (start + mpc) (tokens.length : Int) = (tokens.length : Int) then
        some [jsSlice tokens start (min (start + mpc) (tokens.length : Int))]
      else
        match splitLoop tokens mpc overlap fuel
            (max 0 (min (start + mpc) (tokens.length : Int) - overlap)) with
        | none => none
        | some rest =>
          some (jsSlice tokens start (min (start + mpc) (tokens.length : Int))
            :: rest)
    else some []

/-- `splitIntoTokenChunks` on a token list: `maxPerChunk` is
`contextWindow − promptOverhead` and the loop starts at index 0. -/
def splitIntoTokenChunks (tokens : List Nat)
    (contextWindow promptOverhead overlap : Int) : Option (List (List Nat)) :=
  splitLoop tokens (contextWindow - promptOverhead) overlap (tokens.length + 1) 0

/-- Concatenation of the non-overlap regions of the chunks after the first:
each later chunk re-includes `ov` tokens of its predecessor, so those are
dropped. -/
def assembleRest (ov : Nat) : List (List Nat) → List Nat
  | [] => []
  | c :: rest => c.drop ov ++ assembleRest ov rest

/-- First chunk in full, later chunks with the `ov`-token overlap dropped. -/
def assembleChunks (ov : Nat) : List (List Nat) → List Nat
  | [] => []
  | c :: rest => c ++ assembleRest ov rest

theorem jsSlice_eq {l : List Nat} {s e : Int} (hs : 0 ≤ s) (hse : s ≤ e)
    (he : e ≤ (l.length : Int)) :
    jsSlice l s e = (l.drop s.toNat).take (e - s).toNat := by
  unfold jsSlice jsClamp
  have h1 : ¬(e < 0) := by omega
  have h2 : ¬(s < 0) := by omega
  rw [if_neg h1, if_neg h2]
  have h3 : min e.toNat l.length = e.toNat := by omega
  have h4 : min s.toNat l.length = s.toNat := by omega
  rw [h3, h4]
  rw [List.drop_take]
  congr 1
  omega

theorem splitLoop_diverges (tokens : List Nat) (mpc overlap : Int)
    (hm : mpc ≤ 0) (hov : 0 ≤ overlap) (hne : tokens ≠ []) :
    ∀ fuel, splitLoop tokens mpc overlap fuel 0 = none := by
  intro fuel
  induction fuel with
  | zero => rfl
  | succ n ih =>
    have hlen : 0 < (tokens.length : Int) := by
      have := List.length_pos.mpr hne
      omega
    rw [splitLoop, if_pos hlen]
    have hmin : min ((0 : Int) + mpc) (tokens.length : Int) = mpc := by omega
    rw [hmin]
    rw [if_neg (by omega)]
    have hmax : max 0 (mpc - overlap) = 0 := by omega
    rw [hmax, ih]

/-- The inductive core for the terminating regime `0 ≤ overlap < mpc`:
enough fuel yields chunks whose sizes are bounded by `mpc`, whose
first-chunk-plus-tails assembly reconstructs the suffix from `start`, and
whose overlap-dropped assembly reconstructs the suffix from `start + ov`. -/
theorem take_drop_assemble (x : List Nat) (s k : Nat) :
    (x.drop s).take k ++ x.drop (s + k) = x.drop s := by
  rw [← List.drop_drop k s x]
  exact List.take_append_drop k (x.drop s)

theorem splitLoop_spec (tokens : List Nat) (mpc overlap : Int)
    (hov : 0 ≤ overlap) (hlt : overlap < mpc) :
    ∀ (fuel : Nat) (start : Int), 0 ≤ start →
      max 0 ((tokens.length : Int) - start) < (fuel : Int) →
      ∃ chunks, splitLoop tokens mpc overlap fuel start = some chunks ∧
        assembleChunks overlap.toNat chunks = tokens.drop start.toNat ∧
        assembleRest overlap.toNat chunks
          = tokens.drop (start.toNat + overlap.toNat) ∧
        ∀ c ∈ chunks, (c.length : Int) ≤ mpc := by
  intro fuel
  induction fuel with
  | zero =>
    intro start hs hf
    omega
  | succ n ih =>
    intro start hs hf
    by_cases hlt2 : start < (tokens.length : Int)
    · have he1 : start ≤ min (start + mpc) (tokens.length : Int) := by omega
      have he2 : min (start + mpc) (tokens.length : Int)
          ≤ (tokens.length : Int) := by omega
      have hchunk := jsSlice_eq hs he1 he2 (l := tokens)
      by_cases hend : min (start + mpc) (tokens.length : Int)
          = (tokens.length : Int)
      · have hT : (min (start + mpc) (tokens.length : Int) - start).toNat
            = tokens.length - start.toNat := by omega
        refine ⟨[jsSlice tokens start (min (start + mpc) (tokens.length : Int))],
          ?_, ?_, ?_, ?_⟩
        · rw [splitLoop, if_pos hlt2, if_pos hend]
        · show jsSlice tokens start _ ++ assembleRest _ [] = _
          rw [hchunk, hT, assembleRest, List.append_nil]
          apply List.take_of_length_le
          rw [List.length_drop]
        · show (jsSlice tokens start _).drop overlap.toNat
              ++ assembleRest _ [] = _
          rw [hchunk, hT, assembleRest, List.append_nil]
          rw [List.drop_take, List.drop_drop]
          apply List.take_of_length_le
          rw [List.length_drop]
          omega
        · intro c hc
          simp only [List.mem_singleton] at hc
          rw [hc, hchunk]
          have h2 := List.length_take_le
            (min (start + mpc) (tokens.length : Int) - start).toNat
            (tokens.drop start.toNat)
          omega
      · have hstep : min (start + mpc) (tokens.length : Int) = start + mpc := by
          omega
        have hT : (min (start + mpc) (tokens.length : Int) - start).toNat
            = mpc.toNat := by omega
        have hnext : max 0 (min (start + mpc) (tokens.length : Int) - overlap)
            = start + (mpc - overlap) := by omega
        obtain ⟨rest, hrest, hasm, hasmR, hbound⟩ :=
          ih (start + (mpc - overlap)) (by omega) (by omega)
        have hD : (start + (mpc - overlap)).toNat + overlap.toNat
            = start.toNat + mpc.toNat := by omega
        refine ⟨jsSlice tokens start (min (start + mpc) (tokens.length : Int))
            :: rest, ?_, ?_, ?_, ?_⟩
        · rw [splitLoop, if_pos hlt2, if_neg hend, hnext, hrest]
        · show jsSlice tokens start _ ++ assembleRest _ rest = _
          rw [hasmR, hchunk, hT, hD]
          exact take_drop_assemble tokens start.toNat mpc.toNat
        · show (jsSlice tokens start _).drop overlap.toNat
              ++ assembleRest _ rest = _
          rw [hasmR, hchunk, hT, hD]
          rw [List.drop_take, List.drop_drop]
          have hsum : start.toNat + mpc.toNat
              = (start.toNat + overlap.toNat) + (mpc.toNat - overlap.toNat) := by
            omega
          rw [hsum]
          exact take_drop_assemble tokens (start.toNat + overlap.toNat)
            (mpc.toNat - overlap.toNat)
        · intro c hc
          rcases List.mem_cons.mp hc with hc | hc
          · rw [hc, hchunk]
            have h2 := List.length_take_le
              (min (start + mpc) (tokens.length : Int) - start).toNat
              (tokens.drop start.toNat)
            omega
          · exact hbound c hc
    · refine ⟨[], ?_, ?_, ?_, ?_⟩
      · rw [splitLoop, if_neg hlt2]
      · show [] = tokens.drop start.toNat
        rw [List.drop_eq_nil_of_le (by omega)]
      · show [] = tokens.drop (start.toNat + overlap.toNat)
        rw [List.drop_eq_nil_of_le (by omega)]
      · intro c hc
        simp at hc

/-- C4: the chunker has no `ConfigError` path. When
`maxPerChunk = contextWindow − promptOverhead ≤ 0` and the input is
nonempty, the `while` loop never terminates (every fuel bound is
exhausted: `start` stays 0 and `end` never reaches `tokens.length`), and
on empty input it returns an empty chunk list normally — in neither case
does chunking fail with an error. -/
theorem C4_chunker_diverges (tokens : List Nat) (cw po ov : Int)
    (hm : cw - po ≤ 0) (hov : 0 ≤ ov) (hne : tokens ≠ []) :
    splitIntoTokenChunks tokens cw po ov = none
    ∧ (∀ fuel, splitLoop tokens (cw - po) ov fuel 0 = none)
    ∧ splitIntoTokenChunks [] cw po ov = some [] := by
  refine ⟨?_, fun fuel => splitLoop_diverges tokens _ ov hm hov hne fuel, rfl⟩
  exact splitLoop_diverges tokens _ ov hm hov hne _

/-- C4 witness: one token of input with `contextWindow = 100` and
`promptOverhead = 300` (so `maxPerChunk = −200`) and the default overlap
of 100 exhausts every fuel bound. -/
theorem C4_witness :
    splitIntoTokenChunks [5] 100 300 100 = none
    ∧ splitLoop [5] (100 - 300) 100 7 0 = none
    ∧ splitIntoTokenChunks [] 100 300 100 = some [] := by
  obtain ⟨h1, h2, h3⟩ := C4_chunker_diverges [5] 100 300 100
    (by decide) (by decide) (by decide)
  exact ⟨h1, h2 7, h3⟩

/-- C5: chunk coverage. Whenever `maxPerChunk = contextWindow − overhead`
is positive and exceeds the overlap, chunking terminates; every chunk
satisfies `tokenCount(chunk) + promptOverhead ≤ contextWindow`;
concatenating the first chunk with every later chunk's non-overlap region
reconstructs the input exactly; and empty input yields zero chunks rather
than an error. -/
theorem C5_chunk_coverage (tokens : List Nat) (cw po ov : Int)
    (hov : 0 ≤ ov) (hpos : 0 < cw - po) (hgt : ov < cw - po) :
    ∃ chunks, splitIntoTokenChunks tokens cw po ov = some chunks
      ∧ assembleChunks ov.toNat chunks = tokens
      ∧ (∀ c ∈ chunks, (c.length : Int) + po ≤ cw)
      ∧ (tokens = [] → chunks = []) := by
  obtain ⟨chunks, h1, h2, h3, h4⟩ := splitLoop_spec tokens (cw - po) ov hov hgt
    (tokens.length + 1) 0 (by omega) (by omega)
  refine ⟨chunks, h1, ?_, ?_, ?_⟩
  · simpa using h2
  · intro c hc
    have := h4 c hc
    omega
  · intro ht
    subst ht
    have hnil : splitLoop [] (cw - po) ov 1 0 = some [] := rfl
    rw [show (([] : List Nat).length + 1) = 1 from rfl, hnil] at h1
    exact (Option.some_inj.mp h1).symm

/-- C5 witness: six tokens with `contextWindow = 303`, `overhead = 300`,
`overlap = 1` (so `maxPerChunk = 3`). -/
theorem C5_witness :
    ∃ chunks, splitIntoTokenChunks [1, 2, 3, 4, 5, 6] 303 300 1 = some chunks
      ∧ assembleChunks (1 : Int).toNat chunks = [1, 2, 3, 4, 5, 6]
      ∧ (∀ c ∈ chunks, (c.length : Int) + 300 ≤ 303)
      ∧ ([1, 2, 3, 4, 5, 6] = ([] : List Nat) → chunks = []) :=
  C5_chunk_coverage [1, 2, 3, 4, 5, 6] 303 300 1 (by decide) (by decide) (by decide)

/-! ### RateLimiter and the model-call wrapper (`scripts/cron.js`)

```js
record(tokensUsed = 0) {
  this.tokensThisMinute   += tokensUsed;
  this.requestsThisMinute += 1;
  this.lastRequestTime     = Date.now();
}

async function chatOnce(groq, model, content, limiter, contextWindow) {
  const tokensEstimate = encode(content).length;
  await limiter.waitTurn(tokensEstimate);
  try {
    limiter.record(tokensEstimate);
    const res = await groq.chat.completions.create({ model, messages: [...] });
    return (res.choices[0]?.message?.content || '').trim();
  } catch (err) {
    throw err;
  }
}
```

The network call is external: an oracle `attempts` supplies, for each
attempt index, the outcome an attempt at that index would have. The body
makes exactly one `create` call, so only `attempts 0` is consulted. The
error constructors name the specification's taxonomy; the code itself never
distinguishes them. Times are epoch milliseconds. -/

structure RateLimiterState where
  maxTokensPerMinute : Nat
  maxRequestsPerMinute : Nat
  minIntervalMs : Nat
  tokensThisMinute : Nat
  requestsThisMinute : Nat
  minuteStart : Nat
  lastRequestTime : Nat
deriving DecidableEq

/-- The constructor defaults of `new RateLimiter()` at time 0. -/
def rlInit : RateLimiterState :=
  ⟨10000, 30, 2000, 0, 0, 0, 0⟩

/-- The `record` method: add the tokens, count one request, stamp the
current time. -/
def RateLimiterState.record (st : RateLimiterState) (tokensUsed : Nat)
    (now : Nat) : RateLimiterState :=
  { st with
    tokensThisMinute := st.tokensThisMinute + tokensUsed,
    requestsThisMinute := st.requestsThisMinute + 1,
    lastRequestTime := now }

/-- The specification's error taxonomy for provider failures. -/
inductive ProviderError where
  | retryable
  | fatalChunk
  | auth
  | otherErr
deriving DecidableEq

/-- Observable events of one `chatOnce` invocation, in program order. -/
inductive CallEvent where
  | waitTurn
  | record
  | send
deriving DecidableEq

/-- The body of `chatOnce`: `waitTurn`, then `record(tokensEstimate)`, then
one `create` call whose outcome is `attempts 0`; the `catch` rethrows
unchanged. Returns the call result, the limiter state after the call, the
number of attempts made, and the event trace. -/
def chatOnce (st : RateLimiterState) (tokensEstimate : Nat) (now : Nat)
    (attempts : Nat → Except ProviderError (List Char)) :
    Except ProviderError (List Char) × RateLimiterState × Nat × List CallEvent :=
  match attempts 0 with
  | Except.ok s =>
    (Except.ok (trimL s), RateLimiterState.record st tokensEstimate now, 1,
      [CallEvent.waitTurn, CallEvent.record, CallEvent.send])
  | Except.error e =>
    (Except.error e, RateLimiterState.record st tokensEstimate now, 1,
      [CallEvent.waitTurn, CallEvent.record, CallEvent.send])

/-- An attempt oracle whose first attempt fails with a retryable error and
whose later attempts would succeed. -/
def retryThenOk : Nat → Except ProviderError (List Char) :=
  fun n => if n = 0 then Except.error ProviderError.retryable
    else Except.ok ['x']

/-- An attempt oracle that always fails with a retryable error. -/
def alwaysRetryable : Nat → Except ProviderError (List Char) :=
  fun _ => Except.error ProviderError.retryable

/-- C3 counterexample: the wrapper does not retry. With a first attempt
failing retryably and a second attempt that would succeed, `chatOnce`
makes exactly one attempt and propagates the retryable error instead of
retrying with backoff. -/
theorem C3_counterexample :
    (chatOnce rlInit 5 0 retryThenOk).1 = Except.error ProviderError.retryable
    ∧ (chatOnce rlInit 5 0 retryThenOk).2.2.1 = 1
    ∧ retryThenOk 1 = Except.ok ['x'] := by
  refine ⟨rfl, rfl, rfl⟩

/-- C3 amended: `chatOnce` makes exactly one model call and performs no
retry or backoff; every error — `RetryableError` included — propagates
immediately to the caller, and in particular `FatalChunkError` and
`AuthError` propagate immediately (the half of the original claim the code
does satisfy). -/
theorem C3_chatOnce_single_attempt (st : RateLimiterState)
    (tok now : Nat) (attempts : Nat → Except ProviderError (List Char)) :
    (chatOnce st tok now attempts).2.2.1 = 1
    ∧ (∀ e, attempts 0 = Except.error e →
        (chatOnce st tok now attempts).1 = Except.error e)
    ∧ (attempts 0 = Except.error ProviderError.fatalChunk →
        (chatOnce st tok now attempts).1 = Except.error ProviderError.fatalChunk)
    ∧ (attempts 0 = Except.error ProviderError.auth →
        (chatOnce st tok now attempts).1 = Except.error ProviderError.auth) := by
  refine ⟨?_, ?_, ?_, ?_⟩
  · unfold chatOnce
    cases attempts 0 <;> rfl
  · intro e he
    unfold chatOnce
    rw [he]
  · intro he
    unfold chatOnce
    rw [he]
  · intro he
    unfold chatOnce
    rw [he]

/-- C3 witness: the single-attempt theorem applied to the retry-then-ok
oracle, discharging the error hypotheses at attempt 0. -/
theorem C3_witness :
    (chatOnce rlInit 5 0 retryThenOk).2.2.1 = 1
    ∧ (chatOnce rlInit 5 0 retryThenOk).1
        = Except.error ProviderError.retryable := by
  obtain ⟨h1, h2, _, _⟩ := C3_chatOnce_single_attempt rlInit 5 0 retryThenOk
  exact ⟨h1, h2 ProviderError.retryable rfl⟩

/-- C8 counterexample: `record` runs before the request is sent. On a call
whose send fails, the trace still shows `record` preceding `send`, and the
limiter has counted the request and its token estimate. -/
theorem C8_counterexample :
    (chatOnce rlInit 7 5 alwaysRetryable).2.2.2
      = [CallEvent.waitTurn, CallEvent.record, CallEvent.send]
    ∧ (chatOnce rlInit 7 5 alwaysRetryable).2.1.requestsThisMinute = 1
    ∧ (chatOnce rlInit 7 5 alwaysRetryable).2.1.tokensThisMinute = 7
    ∧ (chatOnce rlInit 7 5 alwaysRetryable).2.1.lastRequestTime = 5
    ∧ (chatOnce rlInit 7 5 alwaysRetryable).1
        = Except.error ProviderError.retryable := by
  refine ⟨rfl, rfl, rfl, rfl, rfl⟩

/-- C8 amended: `record` is invoked immediately before the request is sent
(right after `waitTurn`), with the token estimate; it increments both
counters and updates the last-request timestamp, and an attempt that fails
is counted all the same. -/
theorem C8_record_before_send (st : RateLimiterState) (tok now : Nat)
    (attempts : Nat → Except ProviderError (List Char)) :
    (chatOnce st tok now attempts).2.2.2
      = [CallEvent.waitTurn, CallEvent.record, CallEvent.send]
    ∧ (chatOnce st tok now attempts).2.1 = RateLimiterState.record st tok now
    ∧ (RateLimiterState.record st tok now).requestsThisMinute
        = st.requestsThisMinute + 1
    ∧ (RateLimiterState.record st tok now).tokensThisMinute
        = st.tokensThisMinute + tok
    ∧ (RateLimiterState.record st tok now).lastRequestTime = now := by
  refine ⟨?_, ?_, rfl, rfl, rfl⟩
  · unfold chatOnce
    cases attempts 0 <;> rfl
  · unfold chatOnce
    cases attempts 0 <;> rfl

/-! ### Per-Source eligibility (`scripts/cron.js` line 185 and
`src/pages/api/parse-jobs.ts` lines 70–80)

```js
// cron.js
if (c.last_scraped && c.last_scraped >= cutoff) { continue; }

// parse-jobs.ts
const hasJobs = (count ?? 0) > 0;
if (hasJobs && c.last_scraped && c.last_scraped >= cutoff) { continue; }
```

`cutoff` is one hour before now; ISO-8601 timestamps compare
lexicographically, modelled as `Nat`. `none` models a null watermark. -/

def cronProcessed (lastScraped : Option Nat) (cutoff : Nat) : Bool :=
  match lastScraped with
  | none => true
  | some t => decide (t < cutoff)

def handlerProcessed (hasJobs : Bool) (lastScraped : Option Nat)
    (cutoff : Nat) : Bool :=
  match hasJobs, lastScraped with
  | true, some t => decide (t < cutoff)
  | _, _ => true

/-- C9 counterexample: in the API-handler cycle a Source whose watermark
(100) is within the cooldown (cutoff 50, so 100 ≥ cutoff means "scraped
recently") is still processed when it has no persisted jobs, while the cron
cycle skips it — so "skipped regardless of any other state" fails. -/
theorem C9_counterexample :
    handlerProcessed false (some 100) 50 = true
    ∧ cronProcessed (some 100) 50 = false := by
  decide

/-- C9 amended: the cron orchestrator processes a Source iff its watermark
is absent or older than the cutoff; the API-handler variant additionally
processes any Source that has no persisted jobs yet, even inside the
cooldown. -/
theorem C9_eligibility (last : Option Nat) (cutoff : Nat) (hasJobs : Bool) :
    (cronProcessed last cutoff = true
      ↔ last = none ∨ ∃ t, last = some t ∧ t < cutoff)
    ∧ (handlerProcessed hasJobs last cutoff = true
      ↔ hasJobs = false ∨ last = none ∨ ∃ t, last = some t ∧ t < cutoff) := by
  cases last with
  | none => cases hasJobs <;> simp [cronProcessed, handlerProcessed]
  | some t => cases hasJobs <;> simp [cronProcessed, handlerProcessed]

/-! ### Deduplication and the per-Source cycle (`scripts/cron.js` 184–275)

```js
const jobUrls = new Set();
...arr.forEach(u => jobUrls.add(normalizeUrl(u)));
if (!jobUrls.size) { ...update last_scraped...; continue; }
const seenSet = new Set((seenRows || []).map(r => normalizeUrl(r.url)));
const toProcess = Array.from(jobUrls).filter(u => !seenSet.has(u));
if (!toProcess.length) { ...update last_scraped...; continue; }
```

A JS `Set` keeps first-insertion order and ignores duplicates, which
`setInsertFold` reproduces on lists. -/

def setInsertFold (l : List (List Char)) : List (List Char) :=
  l.foldl (fun acc u => if u ∈ acc then acc else acc ++ [u]) []

/-- The stage-1 candidate set: every model-extracted URL normalized, then
added to the `jobUrls` set. -/
def dedupCandidates (stage1Urls : List (List Char)) : List (List Char) :=
  setInsertFold (stage1Urls.map normalizeUrlStr)

/-- The seen-filter: keep candidates whose (already normalized) form is not
among the normalized persisted URLs. -/
def filterNew (jobUrls persisted : List (List Char)) : List (List Char) :=
  jobUrls.filter (fun u => decide (u ∉ persisted.map normalizeUrlStr))

/-- The Deduplicator of the spec: stage-1 URLs collapsed to one entry per
normalized URL, then filtered against the store's keys. -/
def toProcessOf (stage1Urls persisted : List (List Char)) : List (List Char) :=
  filterNew (dedupCandidates stage1Urls) persisted

theorem foldl_setInsert_mem (l : List (List Char)) :
    ∀ (acc : List (List Char)) (x : List Char),
      x ∈ l.foldl (fun acc u => if u ∈ acc then acc else acc ++ [u]) acc
      ↔ x ∈ acc ∨ x ∈ l := by
  induction l with
  | nil => intro acc x; simp
  | cons u t ih =>
    intro acc x
    show x ∈ List.foldl _ (if u ∈ acc then acc else acc ++ [u]) t ↔ _
    by_cases hu : u ∈ acc
    · rw [if_pos hu, ih]
      constructor
      · rintro (hx | hx)
        · exact Or.inl hx
        · exact Or.inr (List.mem_cons_of_mem u hx)
      · rintro (hx | hx)
        · exact Or.inl hx
        · rcases List.mem_cons.mp hx with hx | hx
          · exact Or.inl (hx ▸ hu)
          · exact Or.inr hx
    · rw [if_neg hu, ih]
      constructor
      · rintro (hx | hx)
        · rcases List.mem_append.mp hx with hx | hx
          · exact Or.inl hx
          · simp at hx
            exact Or.inr (List.mem_cons.mpr (Or.inl hx))
        · exact Or.inr (List.mem_cons_of_mem u hx)
      · rintro (hx | hx)
        · exact Or.inl (List.mem_append.mpr (Or.inl hx))
        · rcases List.mem_cons.mp hx with hx | hx
          · exact Or.inl (List.mem_append.mpr (Or.inr (by simp [hx])))
          · exact Or.inr hx

theorem mem_setInsertFold {l : List (List Char)} {x : List Char} :
    x ∈ setInsertFold l ↔ x ∈ l := by
  unfold setInsertFold
  rw [foldl_setInsert_mem]
  simp

theorem foldl_setInsert_nodup (l : List (List Char)) :
    ∀ (acc : List (List Char)), acc.Nodup →
      (l.foldl (fun acc u => if u ∈ acc then acc else acc ++ [u]) acc).Nodup := by
  induction l with
  | nil => intro acc h; exact h
  | cons u t ih =>
    intro acc h
    show (List.foldl _ (if u ∈ acc then acc else acc ++ [u]) t).Nodup
    by_cases hu : u ∈ acc
    · rw [if_pos hu]
      exact ih acc h
    · rw [if_neg hu]
      apply ih
      rw [List.nodup_append]
      refine ⟨h, List.nodup_singleton u, ?_⟩
      intro a ha
      simp only [List.mem_singleton]
      intro hc
      exact hu (hc ▸ ha)

theorem setInsertFold_nodup (l : List (List Char)) : (setInsertFold l).Nodup :=
  foldl_setInsert_nodup l [] List.nodup_nil

/-- C1 counterexample: dedup does not converge on the second run. With the
single candidate `https://www.www.example.com/` and an empty store, the
first run emits `https://www.example.com/`; re-running with the persisted
set extended by that output re-normalizes the stored URL to
`https://example.com/`, misses the match, and emits the candidate again. -/
theorem C1_counterexample :
    toProcessOf [('h' :: 't' :: 't' :: 'p' :: 's' :: ':' :: '/' :: '/' ::
        'w' :: 'w' :: 'w' :: '.' :: 'w' :: 'w' :: 'w' :: '.' :: 'e' :: 'x' :: 'a' :: 'm' :: 'p' :: 'l' ::
        'e' :: '.' :: 'c' :: 'o' :: 'm' :: '/'  :: [])]
      ([] ++ toProcessOf [('h' :: 't' :: 't' :: 'p' :: 's' :: ':' :: '/' :: '/' ::
        'w' :: 'w' :: 'w' :: '.' :: 'w' :: 'w' :: 'w' :: '.' :: 'e' :: 'x' :: 'a' :: 'm' :: 'p' :: 'l' ::
        'e' :: '.' :: 'c' :: 'o' :: 'm' :: '/'  :: [])] [])
      ≠ [] := by
  decide

/-- C1 amended: the Deduplicator's output has at most one entry per
normalized URL and none already persisted, unconditionally; the
second-run-is-empty convergence additionally requires every emitted URL to
be a fixed point of normalization (non-idempotent normalization, e.g. a
`www.www.` host, breaks it — see the counterexample). -/
theorem C1_dedup_resolve (cands persisted : List (List Char)) :
    (toProcessOf cands persisted).Nodup
    ∧ (∀ u ∈ toProcessOf cands persisted, u ∉ persisted.map normalizeUrlStr)
    ∧ ((∀ u ∈ toProcessOf cands persisted, normalizeUrlStr u = u) →
        toProcessOf cands (persisted ++ toProcessOf cands persisted) = []) := by
  refine ⟨?_, ?_, ?_⟩
  · exact List.Nodup.filter _ (setInsertFold_nodup _)
  · intro u hu
    have := List.of_mem_filter hu
    simpa using this
  · intro hfix
    unfold toProcessOf filterNew at *
    rw [List.filter_eq_nil_iff]
    intro u hu
    simp only [decide_eq_true_eq, not_not, Decidable.not_not]
    rw [List.map_append, List.mem_append]
    by_cases hp : u ∈ persisted.map normalizeUrlStr
    · exact Or.inl hp
    · right
      have humem : u ∈ (dedupCandidates cands).filter
          (fun u => decide (u ∉ persisted.map normalizeUrlStr)) := by
        apply List.mem_filter.mpr
        exact ⟨hu, by simpa using hp⟩
      have hfixu := hfix u humem
      rw [List.mem_map]
      exact ⟨u, humem, hfixu⟩

/-- C1 witness: one well-behaved candidate URL, empty store. The output is
duplicate-free, disjoint from the store, and the second run is empty. -/
theorem C1_witness :
    (toProcessOf [('h' :: 't' :: 't' :: 'p' :: 's' :: ':' :: '/' :: '/' ::
        'e' :: 'x' :: 'a' :: 'm' :: 'p' :: 'l' :: 'e' :: '.' :: 'c' :: 'o' :: 'm' :: '/' :: 'a'  :: [])]
      []).Nodup
    ∧ toProcessOf [('h' :: 't' :: 't' :: 'p' :: 's' :: ':' :: '/' :: '/' ::
        'e' :: 'x' :: 'a' :: 'm' :: 'p' :: 'l' :: 'e' :: '.' :: 'c' :: 'o' :: 'm' :: '/' :: 'a'  :: [])]
      ([] ++ toProcessOf [('h' :: 't' :: 't' :: 'p' :: 's' :: ':' :: '/' :: '/' ::
        'e' :: 'x' :: 'a' :: 'm' :: 'p' :: 'l' :: 'e' :: '.' :: 'c' :: 'o' :: 'm' :: '/' :: 'a'  :: [])] [])
      = [] := by
  obtain ⟨h1, _, h3⟩ := C1_dedup_resolve
    [('h' :: 't' :: 't' :: 'p' :: 's' :: ':' :: '/' :: '/' ::
      'e' :: 'x' :: 'a' :: 'm' :: 'p' :: 'l' :: 'e' :: '.' :: 'c' :: 'o' :: 'm' :: '/' :: 'a'  :: [])] []
  exact ⟨h1, h3 (by decide)⟩

/-! ### The per-Source cycle outcome and watermark policy -/

inductive CycleOutcome where
  | skippedRecent
  | skippedFetchFail
  | advancedNoUrls
  | advancedNoNew
  | advancedProcessed
deriving DecidableEq

/-- One Source's pass through the cron main loop. `fetchResult = none`
models the fetch `try/catch` failing (`continue` without watermark update);
`stage1Extract` is the composite outcome of the chunked stage-1 model calls
and JSON parses, which are external. The branch structure mirrors lines
184–275 of `scripts/cron.js`. -/
def sourceCycle (lastScraped : Option Nat) (cutoff : Nat)
    (fetchResult : Option (List Char))
    (stage1Extract : List Char → List (List Char))
    (persistedUrls : List (List Char)) : CycleOutcome :=
  if cronProcessed lastScraped cutoff = false then CycleOutcome.skippedRecent
  else
    match fetchResult with
    | none => CycleOutcome.skippedFetchFail
    | some raw =>
      if dedupCandidates (stage1Extract raw) = [] then
        CycleOutcome.advancedNoUrls
      else if filterNew (dedupCandidates (stage1Extract raw)) persistedUrls = []
        then CycleOutcome.advancedNoNew
      else CycleOutcome.advancedProcessed

/-- Which cycle outcomes update `last_scraped` (steps 2–5 of the loop all
update it; the two `continue`-without-update paths do not). -/
def watermarkAdvanced : CycleOutcome → Bool
  | CycleOutcome.skippedRecent => false
  | CycleOutcome.skippedFetchFail => false
  | _ => true

/-- C2: for an eligible Source, a fetch failure skips the Source without
advancing the watermark (so it is retried next cycle), while zero stage-1
candidates or zero new candidates after the store filter still advance the
watermark; indeed every successful fetch advances it. -/
theorem C2_watermark_policy (lastScraped : Option Nat) (cutoff : Nat)
    (stage1 : List Char → List (List Char)) (persisted : List (List Char))
    (heligible : cronProcessed lastScraped cutoff = true) :
    (sourceCycle lastScraped cutoff none stage1 persisted
        = CycleOutcome.skippedFetchFail
      ∧ watermarkAdvanced
          (sourceCycle lastScraped cutoff none stage1 persisted) = false)
    ∧ (∀ raw, dedupCandidates (stage1 raw) = [] →
        sourceCycle lastScraped cutoff (some raw) stage1 persisted
          = CycleOutcome.advancedNoUrls)
    ∧ (∀ raw, dedupCandidates (stage1 raw) ≠ [] →
        filterNew (dedupCandidates (stage1 raw)) persisted = [] →
        sourceCycle lastScraped cutoff (some raw) stage1 persisted
          = CycleOutcome.advancedNoNew)
    ∧ (∀ raw, watermarkAdvanced
        (sourceCycle lastScraped cutoff (some raw) stage1 persisted) = true) := by
  have hne : ¬(cronProcessed lastScraped cutoff = false) := by
    rw [heligible]
    simp
  refine ⟨⟨?_, ?_⟩, ?_, ?_, ?_⟩
  · unfold sourceCycle
    rw [if_neg hne]
  · unfold sourceCycle
    rw [if_neg hne]
    rfl
  · intro raw hempty
    unfold sourceCycle
    rw [if_neg hne]
    show (if dedupCandidates (stage1 raw) = [] then _ else _) = _
    rw [if_pos hempty]
  · intro raw hne2 hempty2
    unfold sourceCycle
    rw [if_neg hne]
    show (if dedupCandidates (stage1 raw) = [] then _ else _) = _
    rw [if_neg hne2, if_pos hempty2]
  · intro raw
    unfold sourceCycle
    rw [if_neg hne]
    show watermarkAdvanced
      (if dedupCandidates (stage1 raw) = [] then _
       else if filterNew (dedupCandidates (stage1 raw)) persisted = [] then _
       else _) = true
    by_cases h1 : dedupCandidates (stage1 raw) = []
    · rw [if_pos h1]
      rfl
    · rw [if_neg h1]
      by_cases h2 : filterNew (dedupCandidates (stage1 raw)) persisted = []
      · rw [if_pos h2]
        rfl
      · rw [if_neg h2]
        rfl

/-- C2 witness: a never-scraped Source. A failed fetch leaves the watermark
alone; a successful fetch with no extracted URLs, or whose only URL is
already persisted, still advances it. -/
theorem C2_witness :
    (sourceCycle none 0 none (fun _ => []) [] = CycleOutcome.skippedFetchFail
      ∧ watermarkAdvanced (sourceCycle none 0 none (fun _ => []) []) = false)
    ∧ sourceCycle none 0 (some []) (fun _ => []) []
        = CycleOutcome.advancedNoUrls
    ∧ sourceCycle none 0 (some [])
        (fun _ => [('h' :: 't' :: 't' :: 'p' :: 's' :: ':' :: '/' :: '/' ::
          'e' :: 'x' :: 'a' :: 'm' :: 'p' :: 'l' :: 'e' :: '.' :: 'c' :: 'o' :: 'm' :: '/' :: 'a'  :: [])])
        [('h' :: 't' :: 't' :: 'p' :: 's' :: ':' :: '/' :: '/' ::
          'e' :: 'x' :: 'a' :: 'm' :: 'p' :: 'l' :: 'e' :: '.' :: 'c' :: 'o' :: 'm' :: '/' :: 'a'  :: [])]
        = CycleOutcome.advancedNoNew
    ∧ watermarkAdvanced (sourceCycle none 0 (some []) (fun _ => []) []) = true := by
  obtain ⟨hA, hB, _, hD⟩ := C2_watermark_policy none 0 (fun _ => []) [] rfl
  obtain ⟨_, _, hC, _⟩ := C2_watermark_policy none 0
    (fun _ => [('h' :: 't' :: 't' :: 'p' :: 's' :: ':' :: '/' :: '/' ::
      'e' :: 'x' :: 'a' :: 'm' :: 'p' :: 'l' :: 'e' :: '.' :: 'c' :: 'o' :: 'm' :: '/' :: 'a'  :: [])])
    [('h' :: 't' :: 't' :: 'p' :: 's' :: ':' :: '/' :: '/' ::
      'e' :: 'x' :: 'a' :: 'm' :: 'p' :: 'l' :: 'e' :: '.' :: 'c' :: 'o' :: 'm' :: '/' :: 'a'  :: [])] rfl
  exact ⟨hA, hB [] rfl, hC [] (by decide) (by decide), hD []⟩

/-! ### Stage-2 record assembly (`scripts/cron.js` 241–265)

```js
const assembled = {};
for (const chunk of chunks) {
  ...Object.assign(assembled, obj);   // obj: the chunk's parsed JSON
}
Object.assign(assembled, {
  url:           jobUrl,
  company_id:    c.id,
  company_name:  c.name,
  seen_at:       new Date().toISOString(),
});
await sb.from('job_posts').upsert(assembled, ...);
```

JSON objects are modelled extensionally as `String → Option String`
(`none` = key absent); `Object.assign(target, src)` is the right-biased
merge. -/

def objAssign (target src : String → Option String) : String → Option String :=
  fun k =>
    match src k with
    | some v => some v
    | none => target k

def emptyObj : String → Option String := fun _ => none

structure CompanyRow where
  id : String
  name : String

/-- The object literal the orchestrator assigns after all chunk merges. -/
def orchFields (c : CompanyRow) (jobUrl nowIso : String) :
    String → Option String :=
  fun k =>
    if k = "url" then some jobUrl
    else if k = "company_id" then some c.id
    else if k = "company_name" then some c.name
    else if k = "seen_at" then some nowIso
    else none

/-- The record passed to the store's upsert: chunk objects merged
left-to-right into `assembled`, then the orchestrator's fields assigned. -/
def assembledRecord (chunkObjs : List (String → Option String))
    (c : CompanyRow) (jobUrl nowIso : String) : String → Option String :=
  objAssign (chunkObjs.foldl objAssign emptyObj) (orchFields c jobUrl nowIso)

/-- C10: whatever the model emits in any chunk, the upserted record's
`url`, `company_id`, `company_name` and `seen_at` are the orchestrator's
values — the final `Object.assign` runs after all chunk merges, so model
output for these keys never reaches the store. -/
theorem C10_orchestrator_owns_identity_fields
    (chunkObjs : List (String → Option String)) (c : CompanyRow)
    (jobUrl nowIso : String) :
    assembledRecord chunkObjs c jobUrl nowIso "url" = some jobUrl
    ∧ assembledRecord chunkObjs c jobUrl nowIso "company_id" = some c.id
    ∧ assembledRecord chunkObjs c jobUrl nowIso "company_name" = some c.name
    ∧ assembledRecord chunkObjs c jobUrl nowIso "seen_at" = some nowIso := by
  refine ⟨rfl, rfl, rfl, rfl⟩

end JobMonitor
